import Mathlib

/-!
# Verification of the RAG preprocessing core and its Python aggregation layer

The repository wires a native text-processing core (`rag_rust_core`, exposing
`normalize`, `chunk` and `process_document`) into ZenML steps
(`src/rag_preprocessing/steps.py`).  The native core's source is not part of
the repository; following the specification (`spec.md` §4) we model it here,
faithfully to the spec's words, and embed the Python aggregation step
`process_documents` (steps.py) directly from its source.

Strings are embedded as `List Char`; character offsets are `Nat`; the Python
integer parameters are `Int` so that invalid (negative) configurations are
representable.
-/

namespace RagCore

/-! ## Normalizer (modelled from the spec, §4.1) -/

/-- Horizontal whitespace: space or tab (collapsed within a line). -/
def isHWs (c : Char) : Bool := c = ' ' || c = '\t'

/-- Any whitespace character (trimmed at the ends of the document). -/
def isWs (c : Char) : Bool := c = ' ' || c = '\t' || c = '\n' || c = '\r'

/-- Modelled from the spec: `rag_rust_core`'s line-ending normalization
("line endings normalized to a single convention", §4.1): CRLF and lone CR
both become LF. -/
def normEol : List Char → List Char
  | [] => []
  | '\r' :: '\n' :: rest => '\n' :: normEol rest
  | '\r' :: rest => '\n' :: normEol rest
  | c :: rest => c :: normEol rest

/-- Modelled from the spec: "runs of horizontal whitespace within a line
collapsed to a single space" (§4.1).  Newlines pass through untouched, so
paragraph breaks are preserved as explicit boundary markers. -/
def collapseHWs : List Char → List Char
  | [] => []
  | c :: rest =>
    if isHWs c then ' ' :: collapseHWs (rest.dropWhile isHWs)
    else c :: collapseHWs rest
termination_by l => l.length
decreasing_by
  · simpa [Nat.lt_succ_iff] using (List.dropWhile_sublist (l := rest) isHWs).length_le
  · simp

/-- Modelled from the spec: "leading/trailing whitespace trimmed" (§4.1). -/
def trim (l : List Char) : List Char :=
  ((l.dropWhile isWs).reverse.dropWhile isWs).reverse

/-- Modelled from the spec: `rag_rust_core.normalize` — normalize line
endings, collapse horizontal whitespace runs, trim the ends (§4.1). -/
def normalize (l : List Char) : List Char :=
  trim (collapseHWs (normEol l))

/-- The output of `collapseHWs` satisfies this shape: no tab survives and no
two adjacent characters are both horizontal whitespace. -/
def NoHWsRun (l : List Char) : Prop :=
  '\t' ∉ l ∧ List.Chain' (fun a b => ¬(isHWs a ∧ isHWs b)) l

/-! ## Chunker (modelled from the spec, §4.2) -/

/-- The per-chunk record produced by the core (spec §3); `source_id` is
populated later by the caller (spec §6), so the core record does not carry
it. -/
structure ChunkRecord where
  text : List Char
  char_count : Nat
  chunk_index : Nat
  start_offset : Nat
  end_offset : Nat
deriving Repr, DecidableEq

/-- Modelled from the spec: the single error of the core's taxonomy (§7),
raised on an invalid `chunk_size`/`chunk_overlap` combination. -/
inductive ConfigurationError where
  | invalidParams
deriving Repr, DecidableEq

/-- A cut right after a paragraph-break marker. -/
def isParaChar (c : Char) : Bool := c = '\n'

/-- A cut right after sentence-ending punctuation. -/
def isSentChar (c : Char) : Bool := c = '.' || c = '!' || c = '?'

/-- A cut right after a whitespace character. -/
def isSpaceChar (c : Char) : Bool := c = ' '

/-- Modelled from the spec: backward scan from the ideal cut point (§4.2):
the largest cut position `q` with `p - fuel < q ≤ p` whose preceding
character `text[q-1]` satisfies `pred`, if any. -/
def scanBack (text : List Char) (pred : Char → Bool) : Nat → Nat → Option Nat
  | _, 0 => none
  | 0, _ + 1 => none
  | p + 1, fuel + 1 =>
    match text[p]? with
    | some c => if pred c then some (p + 1) else scanBack text pred p fuel
    | none => scanBack text pred p fuel

/-- The ordered list of candidate boundary predicates, best first
(paragraph break > sentence-ending punctuation > whitespace, spec §4.2/§9). -/
def boundaryPreds : List (Char → Bool) := [isParaChar, isSentChar, isSpaceChar]

/-- Modelled from the spec: search backward from `iEnd` within the lookback
budget `lb` for the best boundary, trying each candidate predicate in
priority order (§4.2, §9). -/
def findBoundary (text : List Char) (iEnd lb : Nat) : Option Nat :=
  boundaryPreds.findSome? (fun pred => scanBack text pred iEnd (lb + 1))

/-- Modelled from the spec: the lookback budget, "e.g., up to 10% of
`chunk_size`" (§4.2). -/
def lookback (cs : Nat) : Nat := cs / 10

/-- The end offset chosen for a non-final chunk starting at `s`: the best
boundary within the lookback window below `ideal_end = s + cs`, or the hard
cut at `ideal_end` when no boundary is found (spec §4.2 step 3). -/
def cutEnd (text : List Char) (cs s : Nat) : Nat :=
  match findBoundary text (s + cs) (lookback cs) with
  | some b => b
  | none => s + cs

/-- Modelled from the spec: `next start_offset = end_offset - chunk_overlap`,
clamped to be strictly greater than the previous `start_offset` (§4.2 step 5). -/
def nextStart (e s co : Nat) : Nat := max (e - co) (s + 1)

/-- The ChunkRecord emitted for the span `[s, e)` (spec §4.2 step 4). -/
def mkChunk (text : List Char) (s e idx : Nat) : ChunkRecord :=
  { text := (text.drop s).take (e - s)
    char_count := ((text.drop s).take (e - s)).length
    chunk_index := idx
    start_offset := s
    end_offset := e }

/-- Modelled from the spec: the chunker's linear scan (§4.2 steps 3–6): emit
chunks while `start_offset < len(text)`; a chunk whose ideal end reaches the
end of the text is final. -/
def chunkLoop (text : List Char) (cs co : Nat) : Nat → Nat → List ChunkRecord
  | s, idx =>
    if h : text.length ≤ s then []
    else if h2 : text.length ≤ s + cs then [mkChunk text s text.length idx]
    else
      mkChunk text s (cutEnd text cs s) idx ::
        chunkLoop text cs co (nextStart (cutEnd text cs s) s co) (idx + 1)
termination_by s => text.length - s
decreasing_by simp_wf; simp only [nextStart]; omega

/-- Modelled from the spec: the chunking algorithm on validated parameters
(§4.2, steps 1–6). -/
def chunkCore (text : List Char) (cs co : Nat) : List ChunkRecord :=
  chunkLoop text cs co 0 0

/-- Modelled from the spec: `rag_rust_core.chunk` — rejects an invalid
configuration before any chunking begins (§4.2, §7), otherwise runs the
scan. -/
def chunk (text : List Char) (chunk_size chunk_overlap : Int) :
    Except ConfigurationError (List ChunkRecord) :=
  if chunk_size ≤ 0 ∨ chunk_overlap < 0 ∨ chunk_size ≤ chunk_overlap then
    .error .invalidParams
  else
    .ok (chunkCore text chunk_size.toNat chunk_overlap.toNat)

/-- Position `q` is a valid cut at a boundary: the character right before it
satisfies `pred`. -/
def boundaryAt (text : List Char) (pred : Char → Bool) (q : Nat) : Prop :=
  1 ≤ q ∧ ∃ c, text[q - 1]? = some c ∧ pred c = true

/-- Concatenate chunk texts, dropping from each chunk the part that its
predecessor (ending at offset `p`) already contributed — the chunk's declared
overlap with its predecessor. -/
def reconFrom (p : Nat) : List ChunkRecord → List Char
  | [] => []
  | c :: rest => c.text.drop (p - c.start_offset) ++ reconFrom c.end_offset rest

/-- Concatenation of chunk spans, dropping each chunk's declared overlap with
its predecessor (spec §8, "Coverage"). -/
def reconstruct : List ChunkRecord → List Char
  | [] => []
  | c :: rest => reconFrom c.start_offset (c :: rest)

/-! ## Caller layer: `process_documents` (src/rag_preprocessing/steps.py) -/

/-- A Python value stored in a chunk dict produced by the pipeline. -/
inductive Val where
  | str : String → Val
  | int : Nat → Val
deriving Repr, DecidableEq

/-- Look up a key in a Python dict, modelled as an association list in
insertion order. -/
def lookupKey (d : List (String × Val)) (k : String) : Option Val :=
  (d.find? (fun p => p.1 = k)).map (fun p => p.2)

/-- Python `d[key] = v`: overwrite the value of an existing key in place, or
append a new binding. -/
def setKey (d : List (String × Val)) (k : String) (v : Val) : List (String × Val) :=
  if d.any (fun p => p.1 = k) then
    d.map (fun p => if p.1 = k then (k, v) else p)
  else d ++ [(k, v)]

/-- Modelled from the spec: the dict form of a ChunkRecord as returned to
Python by `rag_rust_core.process_document` — the §3 table minus `source_id`,
which per §6 is populated by the caller. -/
def chunkToDict (c : ChunkRecord) : List (String × Val) :=
  [("text", Val.str (String.mk c.text)),
   ("char_count", Val.int c.char_count),
   ("chunk_index", Val.int c.chunk_index),
   ("start_offset", Val.int c.start_offset),
   ("end_offset", Val.int c.end_offset)]

/-- A document as consumed by `process_documents` (steps.py): a dict with
`filename` and `content` keys. -/
structure Document where
  filename : String
  content : List Char
deriving Repr, DecidableEq

/-- Modelled from the spec: `rag_rust_core.process_document` — normalize the
raw text, chunk it, and return the chunks with their metadata as dicts
(steps.py docstring: clean/normalize, split into chunks, extract metadata). -/
def process_document (content : List Char) (chunk_size chunk_overlap : Int) :
    Except ConfigurationError (List (List (String × Val))) :=
  (chunk (normalize content) chunk_size chunk_overlap).map
    (fun cl => cl.map chunkToDict)

/-- The inner loop of `process_documents` (steps.py:75–78): stamp each chunk
dict of one document with that document's filename under the `source_file`
key. -/
def stampChunks (filename : String) (chunks : List (List (String × Val))) :
    List (List (String × Val)) :=
  chunks.map (fun c => setKey c "source_file" (Val.str filename))

/-- The document loop of `process_documents` (steps.py:65–80), with
`all_chunks` as the accumulator: process each document through the Rust
pipeline, stamp its chunks, and append them to the accumulator. -/
def processDocsLoop (documents : List Document) (chunk_size chunk_overlap : Int)
    (all_chunks : List (List (String × Val))) :
    Except ConfigurationError (List (List (String × Val))) :=
  match documents with
  | [] => Except.ok all_chunks
  | doc :: rest => do
    let chunks ← process_document doc.content chunk_size chunk_overlap
    processDocsLoop rest chunk_size chunk_overlap
      (all_chunks ++ stampChunks doc.filename chunks)

/-- Embedded from steps.py (`process_documents`): run the document loop
starting from an empty `all_chunks`. -/
def process_documents (documents : List Document)
    (chunk_size chunk_overlap : Int) :
    Except ConfigurationError (List (List (String × Val))) :=
  processDocsLoop documents chunk_size chunk_overlap []

/-! ## Lemmas and theorems -/

theorem mem_normEol {c : Char} : ∀ {l : List Char}, c ∈ normEol l → c = '\n' ∨ c ∈ l := by
  intro l h
  induction l using normEol.induct with
  | case1 => simp [normEol] at h
  | case2 rest ih =>
    rw [normEol] at h
    rcases List.mem_cons.1 h with h | h
    · exact Or.inl h
    · rcases ih h with h | h
      · exact Or.inl h
      · exact Or.inr (by simp [h])
  | case3 rest hne ih =>
    rw [normEol] at h
    · rcases List.mem_cons.1 h with h | h
      · exact Or.inl h
      · rcases ih h with h | h
        · exact Or.inl h
        · exact Or.inr (by simp [h])
    · exact hne
  | case4 a rest h1 h2 ih =>
    rw [normEol] at h
    · rcases List.mem_cons.1 h with h | h
      · exact Or.inr (by simp [h])
      · rcases ih h with h | h
        · exact Or.inl h
        · exact Or.inr (by simp [h])
    · exact h1
    · exact h2

theorem cr_not_mem_normEol : ∀ (l : List Char), '\r' ∉ normEol l := by
  intro l
  induction l using normEol.induct with
  | case1 => simp [normEol]
  | case2 rest ih => simpa [normEol] using ih
  | case3 rest hne ih => simpa [normEol] using ih
  | case4 a rest h1 h2 ih =>
    rw [normEol]
    · intro h
      rcases List.mem_cons.1 h with h | h
      · exact h2 h.symm
      · exact ih h
    · exact h1
    · exact h2

theorem mem_collapseHWs {c : Char} :
    ∀ {l : List Char}, c ∈ collapseHWs l → c = ' ' ∨ c ∈ l := by
  intro l h
  induction l using collapseHWs.induct with
  | case1 => simp [collapseHWs] at h
  | case2 a rest ha ih =>
    rw [collapseHWs, if_pos ha] at h
    rcases List.mem_cons.1 h with h | h
    · exact Or.inl h
    · rcases ih h with h | h
      · exact Or.inl h
      · exact Or.inr (List.mem_cons_of_mem _ ((List.dropWhile_sublist isHWs).subset h))
  | case3 a rest ha ih =>
    rw [collapseHWs, if_neg ha] at h
    rcases List.mem_cons.1 h with h | h
    · exact Or.inr (by simp [h])
    · rcases ih h with h | h
      · exact Or.inl h
      · exact Or.inr (List.mem_cons_of_mem _ h)

theorem head?_collapseHWs_not_hws {l : List Char}
    (h : ∀ x ∈ l.head?, ¬ isHWs x = true) :
    ∀ y ∈ (collapseHWs l).head?, ¬ isHWs y = true := by
  match l with
  | [] => intro y hy; simp [collapseHWs] at hy
  | c :: rest =>
    have hc : ¬ isHWs c = true := h c rfl
    rw [collapseHWs, if_neg hc]
    intro y hy
    simp only [List.head?_cons, Option.mem_def, Option.some.injEq] at hy
    exact hy ▸ hc

theorem collapseHWs_noHWsRun : ∀ (l : List Char), NoHWsRun (collapseHWs l) := by
  intro l
  induction l using collapseHWs.induct with
  | case1 => exact ⟨by simp [collapseHWs], by simp [collapseHWs]⟩
  | case2 a rest ha ih =>
    rw [collapseHWs, if_pos ha]
    refine ⟨?_, ?_⟩
    · intro hmem
      rcases List.mem_cons.1 hmem with h | h
      · exact absurd h (by decide)
      · exact ih.1 h
    · rw [List.chain'_cons']
      refine ⟨?_, ih.2⟩
      intro y hy
      have hnot := head?_collapseHWs_not_hws (l := rest.dropWhile isHWs) ?_ y hy
      · exact fun hc => hnot hc.2
      · intro x hx
        have := List.head?_dropWhile_not isHWs rest
        cases hh : (rest.dropWhile isHWs).head? with
        | none => rw [hh] at hx; exact absurd hx (by simp)
        | some z =>
          rw [hh] at this hx
          simp only [Option.mem_def, Option.some.injEq] at hx
          simp only [hx] at this ⊢
          simp [this]
  | case3 a rest ha ih =>
    rw [collapseHWs, if_neg ha]
    refine ⟨?_, ?_⟩
    · intro hmem
      rcases List.mem_cons.1 hmem with h | h
      · exact ha (by rw [← h]; decide)
      · exact ih.1 h
    · rw [List.chain'_cons']
      exact ⟨fun y _ hc => ha hc.1, ih.2⟩

theorem collapseHWs_eq_self : ∀ {l : List Char}, NoHWsRun l → collapseHWs l = l := by
  intro l
  induction l with
  | nil => intro _; simp [collapseHWs]
  | cons c rest ih =>
    intro ⟨htab, hchain⟩
    by_cases hc : isHWs c = true
    · have hcsp : c = ' ' := by
        rcases (by revert hc; simp [isHWs] : c = ' ' ∨ c = '\t') with h | h
        · exact h
        · exact absurd (by simp [h]) htab
      rw [collapseHWs, if_pos hc]
      have hdrop : rest.dropWhile isHWs = rest := by
        cases rest with
        | nil => rfl
        | cons d r =>
          have hR := (List.chain'_cons.1 hchain).1
          have hd : ¬ isHWs d = true := fun hdt => hR ⟨hc, hdt⟩
          simp [List.dropWhile_cons, hd]
      rw [hdrop, hcsp,
        ih ⟨fun ht => htab (List.mem_cons_of_mem _ ht), (List.chain'_cons'.1 hchain).2⟩]
    · rw [collapseHWs, if_neg hc,
        ih ⟨fun ht => htab (List.mem_cons_of_mem _ ht), (List.chain'_cons'.1 hchain).2⟩]

theorem chain'_dropWhile {R : Char → Char → Prop} {p : Char → Bool} :
    ∀ {l : List Char}, List.Chain' R l → List.Chain' R (l.dropWhile p) := by
  intro l h
  induction l with
  | nil => exact h
  | cons c rest ih =>
    rw [List.dropWhile_cons]
    by_cases hc : p c = true
    · rw [if_pos hc]
      exact ih ((List.chain'_cons'.1 h).2)
    · rw [if_neg hc]
      exact h

theorem getLast?_dropWhile {p : Char → Bool} :
    ∀ {l : List Char}, l.dropWhile p ≠ [] → (l.dropWhile p).getLast? = l.getLast? := by
  intro l
  induction l with
  | nil => intro h; exact absurd rfl h
  | cons c rest ih =>
    intro hne
    rw [List.dropWhile_cons] at hne ⊢
    by_cases hc : p c = true
    · rw [if_pos hc] at hne ⊢
      cases rest with
      | nil => exact absurd rfl hne
      | cons d r => rw [ih hne, List.getLast?_cons_cons]
    · rw [if_neg hc]

/-- `trim` only removes characters, never adds them. -/
theorem trim_subset (l : List Char) : trim l ⊆ l := by
  intro c hc
  unfold trim at hc
  rw [List.mem_reverse] at hc
  have h1 := (List.dropWhile_sublist isWs).subset hc
  rw [List.mem_reverse] at h1
  exact (List.dropWhile_sublist isWs).subset h1

theorem noHWsRun_trim {l : List Char} (h : NoHWsRun l) : NoHWsRun (trim l) := by
  refine ⟨fun ht => h.1 (trim_subset l ht), ?_⟩
  have hsymm : ∀ (R : Char → Char → Prop), (∀ a b, R a b → R b a) →
      ∀ {m : List Char}, List.Chain' R m → List.Chain' R m.reverse := by
    intro R hR m hm
    rw [List.chain'_reverse]
    exact List.Chain'.imp (fun a b hab => hR a b hab) hm
  unfold trim
  exact hsymm _ (fun a b hab hc => hab ⟨hc.2, hc.1⟩)
    (chain'_dropWhile (hsymm _ (fun a b hab hc => hab ⟨hc.2, hc.1⟩)
      (chain'_dropWhile h.2)))

theorem head?_trim_not_ws (l : List Char) :
    ∀ y ∈ (trim l).head?, isWs y = false := by
  intro y hy
  unfold trim at hy
  rw [List.head?_reverse] at hy
  rcases hnil : (l.dropWhile isWs).reverse.dropWhile isWs with _ | ⟨c, r⟩
  · rw [hnil] at hy; simp at hy
  · have hkne : (l.dropWhile isWs).reverse.dropWhile isWs ≠ [] := by
      rw [hnil]; simp
    rw [getLast?_dropWhile hkne, List.getLast?_reverse] at hy
    have hnw := List.head?_dropWhile_not isWs l
    cases hh : (l.dropWhile isWs).head? with
    | none => rw [hh] at hy; simp at hy
    | some z =>
      rw [hh] at hy hnw
      simp only [Option.mem_def, Option.some.injEq] at hy
      simp only at hnw
      rw [← hy]
      exact hnw

theorem dropWhile_trim (l : List Char) : (trim l).dropWhile isWs = trim l := by
  cases hh : trim l with
  | nil => rfl
  | cons c r =>
    have hc := head?_trim_not_ws l c (by rw [hh]; rfl)
    simp [List.dropWhile_cons, hc]

theorem dropWhile_reverse_trim (l : List Char) :
    (trim l).reverse.dropWhile isWs = (trim l).reverse := by
  unfold trim
  rw [List.reverse_reverse]
  cases hh : (l.dropWhile isWs).reverse.dropWhile isWs with
  | nil => rfl
  | cons c r =>
    have hnw := List.head?_dropWhile_not isWs (l.dropWhile isWs).reverse
    rw [hh] at hnw
    simp only [List.head?_cons] at hnw
    simp [List.dropWhile_cons, hnw]

theorem trim_idem (l : List Char) : trim (trim l) = trim l := by
  have hdef : trim (trim l) = (((trim l).dropWhile isWs).reverse.dropWhile isWs).reverse := rfl
  rw [hdef, dropWhile_trim, dropWhile_reverse_trim, List.reverse_reverse]

theorem normEol_eq_self {l : List Char} (h : '\r' ∉ l) : normEol l = l := by
  induction l using normEol.induct with
  | case1 => rfl
  | case2 rest ih => simp at h
  | case3 rest hne ih => simp at h
  | case4 a rest h1 h2 ih =>
    rw [normEol]
    · rw [ih (fun hc => h (List.mem_cons_of_mem _ hc))]
    · exact h1
    · exact h2

theorem cr_not_mem_normalize (l : List Char) : '\r' ∉ normalize l := by
  intro h
  have h1 := trim_subset _ h
  rcases mem_collapseHWs h1 with h2 | h2
  · exact absurd h2 (by decide)
  · exact cr_not_mem_normEol _ h2

theorem noHWsRun_normalize (l : List Char) : NoHWsRun (normalize l) :=
  noHWsRun_trim (collapseHWs_noHWsRun (normEol l))

theorem normalize_idem (l : List Char) : normalize (normalize l) = normalize l := by
  have h1 : normEol (normalize l) = normalize l := normEol_eq_self (cr_not_mem_normalize l)
  have h2 : collapseHWs (normalize l) = normalize l :=
    collapseHWs_eq_self (noHWsRun_normalize l)
  show trim (collapseHWs (normEol (normalize l))) = normalize l
  rw [h1, h2]
  show trim (trim (collapseHWs (normEol l))) = trim (collapseHWs (normEol l))
  exact trim_idem _

/-! ### Chunker lemmas -/

theorem scanBack_some {text : List Char} {pred : Char → Bool} :
    ∀ {p fuel q : Nat}, scanBack text pred p fuel = some q →
      boundaryAt text pred q ∧ q ≤ p ∧ p < q + fuel := by
  intro p fuel
  induction fuel generalizing p with
  | zero => intro q h; simp [scanBack] at h
  | succ fuel ih =>
    intro q h
    match p with
    | 0 => simp [scanBack] at h
    | p + 1 =>
      rw [scanBack] at h
      split at h
      next c hg =>
        by_cases hp : pred c = true
        · rw [if_pos hp] at h
          cases h
          exact ⟨⟨Nat.succ_le_succ (Nat.zero_le _), c, by simpa using hg, hp⟩,
            Nat.le_refl _, by omega⟩
        · rw [if_neg hp] at h
          obtain ⟨hb, h1, h2⟩ := ih h
          exact ⟨hb, by omega, by omega⟩
      next hg =>
        obtain ⟨hb, h1, h2⟩ := ih h
        exact ⟨hb, by omega, by omega⟩

theorem scanBack_some_maximal {text : List Char} {pred : Char → Bool} :
    ∀ {p fuel q : Nat}, scanBack text pred p fuel = some q →
      ∀ r, q < r → r ≤ p → ¬ boundaryAt text pred r := by
  intro p fuel
  induction fuel generalizing p with
  | zero => intro q h; simp [scanBack] at h
  | succ fuel ih =>
    intro q h r hqr hrp
    match p with
    | 0 => simp [scanBack] at h
    | p + 1 =>
      rw [scanBack] at h
      split at h
      next c hg =>
        by_cases hp : pred c = true
        · rw [if_pos hp] at h
          cases h
          omega
        · rw [if_neg hp] at h
          rcases Nat.lt_or_ge r (p + 1) with hr | hr
          · exact ih h r hqr (by omega)
          · have hrpe : r = p + 1 := by omega
            subst hrpe
            rintro ⟨-, c', hc', hpc'⟩
            simp only [Nat.add_sub_cancel] at hc'
            rw [hg] at hc'
            cases hc'
            exact hp hpc'
      next hg =>
        rcases Nat.lt_or_ge r (p + 1) with hr | hr
        · exact ih h r hqr (by omega)
        · have hrpe : r = p + 1 := by omega
          subst hrpe
          rintro ⟨-, c', hc', -⟩
          simp only [Nat.add_sub_cancel] at hc'
          rw [hg] at hc'
          cases hc'

theorem scanBack_none {text : List Char} {pred : Char → Bool} :
    ∀ {p fuel : Nat}, scanBack text pred p fuel = none →
      ∀ r, r ≤ p → p < r + fuel → ¬ boundaryAt text pred r := by
  intro p fuel
  induction fuel generalizing p with
  | zero => intro _ r _ hr; omega
  | succ fuel ih =>
    intro h r hrp hrf
    match p with
    | 0 =>
      intro hb
      have := hb.1
      omega
    | p + 1 =>
      rw [scanBack] at h
      split at h
      next c hg =>
        by_cases hp : pred c = true
        · rw [if_pos hp] at h; cases h
        · rw [if_neg hp] at h
          rcases Nat.lt_or_ge r (p + 1) with hr | hr
          · exact ih h r (by omega) (by omega)
          · have hrpe : r = p + 1 := by omega
            subst hrpe
            rintro ⟨-, c', hc', hpc'⟩
            simp only [Nat.add_sub_cancel] at hc'
            rw [hg] at hc'
            cases hc'
            exact hp hpc'
      next hg =>
        rcases Nat.lt_or_ge r (p + 1) with hr | hr
        · exact ih h r (by omega) (by omega)
        · have hrpe : r = p + 1 := by omega
          subst hrpe
          rintro ⟨-, c', hc', -⟩
          simp only [Nat.add_sub_cancel] at hc'
          rw [hg] at hc'
          cases hc'

theorem findBoundary_def (text : List Char) (iEnd lb : Nat) :
    findBoundary text iEnd lb =
      match scanBack text isParaChar iEnd (lb + 1) with
      | some q => some q
      | none =>
        match scanBack text isSentChar iEnd (lb + 1) with
        | some q => some q
        | none => scanBack text isSpaceChar iEnd (lb + 1) := by
  simp only [findBoundary, boundaryPreds, List.findSome?]
  cases scanBack text isParaChar iEnd (lb + 1) with
  | some q => rfl
  | none =>
    cases scanBack text isSentChar iEnd (lb + 1) with
    | some q => rfl
    | none =>
      cases scanBack text isSpaceChar iEnd (lb + 1) with
      | some q => rfl
      | none => rfl

theorem findBoundary_some_bounds {text : List Char} {iEnd lb q : Nat}
    (h : findBoundary text iEnd lb = some q) :
    1 ≤ q ∧ q ≤ iEnd ∧ iEnd ≤ q + lb := by
  rw [findBoundary_def] at h
  cases h1 : scanBack text isParaChar iEnd (lb + 1) with
  | some b =>
    rw [h1] at h; cases h
    obtain ⟨hb, hle, hlt⟩ := scanBack_some h1
    exact ⟨hb.1, hle, by omega⟩
  | none =>
    rw [h1] at h
    cases h2 : scanBack text isSentChar iEnd (lb + 1) with
    | some b =>
      rw [h2] at h; cases h
      obtain ⟨hb, hle, hlt⟩ := scanBack_some h2
      exact ⟨hb.1, hle, by omega⟩
    | none =>
      rw [h2] at h
      obtain ⟨hb, hle, hlt⟩ := scanBack_some h
      exact ⟨hb.1, hle, by omega⟩

theorem cutEnd_bounds (text : List Char) {cs : Nat} (s : Nat) (hcs : 1 ≤ cs) :
    s < cutEnd text cs s ∧ cutEnd text cs s ≤ s + cs := by
  have hlb : lookback cs < cs := Nat.div_lt_self (by omega) (by norm_num)
  unfold cutEnd
  split
  next b hf =>
    obtain ⟨h1, h2, h3⟩ := findBoundary_some_bounds hf
    exact ⟨by omega, h2⟩
  next hf => exact ⟨by omega, Nat.le_refl _⟩

theorem fb_none_elim {text : List Char} {iE lb : Nat}
    (h : findBoundary text iE lb = none) :
    scanBack text isParaChar iE (lb + 1) = none ∧
      scanBack text isSentChar iE (lb + 1) = none ∧
      scanBack text isSpaceChar iE (lb + 1) = none := by
  rw [findBoundary_def] at h
  split at h
  · cases h
  · split at h
    · cases h
    · exact ⟨by assumption, by assumption, h⟩

theorem fb_some_elim {text : List Char} {iE lb b : Nat}
    (h : findBoundary text iE lb = some b) :
    scanBack text isParaChar iE (lb + 1) = some b ∨
      (scanBack text isParaChar iE (lb + 1) = none ∧
        scanBack text isSentChar iE (lb + 1) = some b) ∨
      (scanBack text isParaChar iE (lb + 1) = none ∧
        scanBack text isSentChar iE (lb + 1) = none ∧
        scanBack text isSpaceChar iE (lb + 1) = some b) := by
  rw [findBoundary_def] at h
  split at h
  next q hq => cases h; exact Or.inl hq
  next hq =>
    split at h
    next q hq2 => cases h; exact Or.inr (Or.inl ⟨hq, hq2⟩)
    next hq2 => exact Or.inr (Or.inr ⟨hq, hq2, h⟩)

/-- If the window at `iE` finds no boundary at all, a later window cannot cut
below `iE`: its boundary would already have been visible at `iE`. -/
theorem fb_none_le {text : List Char} {iE iE' lb b' : Nat} (hiE : iE < iE')
    (h : findBoundary text iE lb = none)
    (h' : findBoundary text iE' lb = some b') : iE ≤ b' := by
  by_contra hlt
  push_neg at hlt
  obtain ⟨hpn, hsn, hwn⟩ := fb_none_elim h
  rcases fb_some_elim h' with hq | ⟨-, hq⟩ | ⟨-, -, hq⟩ <;>
  · obtain ⟨hb, hle, hfuel⟩ := scanBack_some hq
    first
    | exact scanBack_none hpn b' (by omega) (by omega) hb
    | exact scanBack_none hsn b' (by omega) (by omega) hb
    | exact scanBack_none hwn b' (by omega) (by omega) hb

/-- A later window never cuts strictly below an earlier window's boundary:
the boundary priority order and the backward-scan maximality forbid it. -/
theorem fb_some_le {text : List Char} {iE iE' lb b b' : Nat} (hiE : iE < iE')
    (h : findBoundary text iE lb = some b)
    (h' : findBoundary text iE' lb = some b') : b ≤ b' := by
  by_contra hlt
  push_neg at hlt
  rcases fb_some_elim h with hP | ⟨hPn, hP⟩ | ⟨hPn, hSn, hP⟩ <;>
    obtain ⟨hbB, hble, hbfuel⟩ := scanBack_some hP <;>
    rcases fb_some_elim h' with hQ | ⟨hQn, hQ⟩ | ⟨hQn2, hQn, hQ⟩ <;>
    obtain ⟨hbB', hble', hbfuel'⟩ := scanBack_some hQ
  -- para / para
  · exact scanBack_some_maximal hQ b hlt (by omega) hbB
  -- para / sent : window s' finds a sentence cut only if its para scan failed,
  -- but the earlier para boundary b lies inside the later window
  · exact scanBack_none hQn b (by omega) (by omega) hbB
  -- para / space
  · exact scanBack_none hQn2 b (by omega) (by omega) hbB
  -- sent / para : the para boundary b' lies inside the earlier window, whose
  -- para scan failed
  · exact scanBack_none hPn b' (by omega) (by omega) hbB'
  -- sent / sent
  · exact scanBack_some_maximal hQ b hlt (by omega) hbB
  -- sent / space
  · exact scanBack_none hQn b (by omega) (by omega) hbB
  -- space / para
  · exact scanBack_none hPn b' (by omega) (by omega) hbB'
  -- space / sent
  · exact scanBack_none hSn b' (by omega) (by omega) hbB'
  -- space / space
  · exact scanBack_some_maximal hQ b hlt (by omega) hbB

/-- The chosen end offset is monotone in the start offset: a later chunk never
ends before an earlier chunk's end. -/
theorem cutEnd_mono (text : List Char) {cs : Nat} {s s' : Nat}
    (hss : s < s') : cutEnd text cs s ≤ cutEnd text cs s' := by
  have hiE : s + cs < s' + cs := by omega
  show (match findBoundary text (s + cs) (lookback cs) with
      | some b => b
      | none => s + cs) ≤
    (match findBoundary text (s' + cs) (lookback cs) with
      | some b => b
      | none => s' + cs)
  split
  next b hf =>
    split
    next b' hf' => exact fb_some_le hiE hf hf'
    next hf' =>
      exact le_trans (findBoundary_some_bounds hf).2.1 (Nat.le_of_lt hiE)
  next hf =>
    split
    next b' hf' => exact fb_none_le hiE hf hf'
    next hf' => exact Nat.le_of_lt hiE

theorem chunkLoop_nil {text : List Char} {cs co s idx : Nat} (h : text.length ≤ s) :
    chunkLoop text cs co s idx = [] := by
  rw [chunkLoop, dif_pos h]

theorem chunkLoop_final {text : List Char} {cs co s idx : Nat}
    (h : ¬ text.length ≤ s) (h2 : text.length ≤ s + cs) :
    chunkLoop text cs co s idx = [mkChunk text s text.length idx] := by
  rw [chunkLoop, dif_neg h, dif_pos h2]

theorem chunkLoop_step {text : List Char} {cs co s idx : Nat}
    (h : ¬ text.length ≤ s) (h2 : ¬ text.length ≤ s + cs) :
    chunkLoop text cs co s idx =
      mkChunk text s (cutEnd text cs s) idx ::
        chunkLoop text cs co (nextStart (cutEnd text cs s) s co) (idx + 1) := by
  rw [chunkLoop, dif_neg h, dif_neg h2]

theorem chunkLoop_ne_nil {text : List Char} {cs co s idx : Nat}
    (h : s < text.length) : chunkLoop text cs co s idx ≠ [] := by
  by_cases h2 : text.length ≤ s + cs
  · rw [chunkLoop_final (by omega) h2]; simp
  · rw [chunkLoop_step (by omega) h2]; simp

theorem chunkLoop_head?_start {text : List Char} {cs co s idx : Nat} :
    ∀ c ∈ (chunkLoop text cs co s idx).head?, c.start_offset = s := by
  intro c hc
  by_cases h : text.length ≤ s
  · rw [chunkLoop_nil h] at hc; simp at hc
  · by_cases h2 : text.length ≤ s + cs
    · rw [chunkLoop_final h h2] at hc
      simp only [List.head?_cons, Option.mem_def, Option.some.injEq] at hc
      rw [← hc]; rfl
    · rw [chunkLoop_step h h2] at hc
      simp only [List.head?_cons, Option.mem_def, Option.some.injEq] at hc
      rw [← hc]; rfl

/-- Every chunk the loop emits: it starts no earlier than the loop's current
offset, is non-empty, stays within the text, respects the size budget, its
`text` is exactly the span of the normalized text it names, and its
`char_count` is the span length. -/
theorem chunkLoop_mem {text : List Char} {cs co : Nat} (hcs : 1 ≤ cs) :
    ∀ {s idx : Nat} {c : ChunkRecord}, c ∈ chunkLoop text cs co s idx →
      s ≤ c.start_offset ∧ c.start_offset < c.end_offset ∧
        c.end_offset ≤ text.length ∧ c.end_offset ≤ c.start_offset + cs ∧
        c.text = (text.drop c.start_offset).take (c.end_offset - c.start_offset) ∧
        c.char_count = c.end_offset - c.start_offset := by
  intro s idx c hc
  induction s, idx using chunkLoop.induct text cs co with
  | case1 s idx h =>
    rw [chunkLoop_nil h] at hc
    simp at hc
  | case2 s idx h h2 =>
    rw [chunkLoop_final h h2] at hc
    simp only [List.mem_singleton] at hc
    subst hc
    simp only [mkChunk]
    refine ⟨Nat.le_refl _, by omega, Nat.le_refl _, h2, trivial, ?_⟩
    rw [List.length_take, List.length_drop]
    omega
  | case3 s idx h h2 ih =>
    rw [chunkLoop_step h h2] at hc
    rcases List.mem_cons.1 hc with hc | hc
    · subst hc
      obtain ⟨hlo, hhi⟩ := cutEnd_bounds text s hcs
      simp only [mkChunk]
      refine ⟨Nat.le_refl _, hlo, by omega, hhi, trivial, ?_⟩
      rw [List.length_take, List.length_drop]
      omega
    · obtain ⟨h1, hrest⟩ := ih hc
      refine ⟨?_, hrest⟩
      simp only [nextStart] at h1
      omega

/-- Consecutive chunks are linked exactly by the spec's step 5:
`next start_offset = max(end_offset - overlap, previous start_offset + 1)`. -/
theorem chunkLoop_chain {text : List Char} {cs co : Nat} :
    ∀ {s idx : Nat}, List.Chain'
      (fun a b => b.start_offset = nextStart a.end_offset a.start_offset co)
      (chunkLoop text cs co s idx) := by
  intro s idx
  induction s, idx using chunkLoop.induct text cs co with
  | case1 s idx h => rw [chunkLoop_nil h]; simp
  | case2 s idx h h2 => rw [chunkLoop_final h h2]; exact List.chain'_singleton _
  | case3 s idx h h2 ih =>
    rw [chunkLoop_step h h2]
    rw [List.chain'_cons']
    refine ⟨?_, ih⟩
    intro y hy
    rw [chunkLoop_head?_start y hy]
    rfl

theorem chunkLoop_getLast_end {text : List Char} {cs co : Nat} (hcs : 1 ≤ cs) :
    ∀ {s idx : Nat}, s < text.length →
      ∀ c ∈ (chunkLoop text cs co s idx).getLast?, c.end_offset = text.length := by
  intro s idx hs
  induction s, idx using chunkLoop.induct text cs co with
  | case1 s idx h => omega
  | case2 s idx h h2 =>
    intro c hc
    rw [chunkLoop_final h h2] at hc
    simp only [List.getLast?_singleton, Option.mem_def, Option.some.injEq] at hc
    rw [← hc]
    rfl
  | case3 s idx h h2 ih =>
    intro c hc
    rw [chunkLoop_step h h2] at hc
    obtain ⟨hlo, hhi⟩ := cutEnd_bounds text s hcs
    have hs' : nextStart (cutEnd text cs s) s co < text.length := by
      simp only [nextStart]
      omega
    have hne := @chunkLoop_ne_nil text cs co
      (nextStart (cutEnd text cs s) s co) (idx + 1) hs'
    rcases hrest : chunkLoop text cs co (nextStart (cutEnd text cs s) s co) (idx + 1) with
      _ | ⟨d, rest⟩
    · exact absurd hrest hne
    · rw [hrest, List.getLast?_cons_cons] at hc
      rw [← hrest] at hc
      exact ih hs' c hc

theorem chunkLoop_map_index {text : List Char} {cs co : Nat} :
    ∀ {s idx : Nat}, (chunkLoop text cs co s idx).map ChunkRecord.chunk_index =
      List.range' idx (chunkLoop text cs co s idx).length := by
  intro s idx
  induction s, idx using chunkLoop.induct text cs co with
  | case1 s idx h => rw [chunkLoop_nil h]; rfl
  | case2 s idx h h2 => rw [chunkLoop_final h h2]; rfl
  | case3 s idx h h2 ih =>
    rw [chunkLoop_step h h2]
    simp only [List.map_cons, List.length_cons, List.range'_succ]
    rw [ih]
    rfl

theorem span_drop (text : List Char) {s p : Nat} (e : Nat) (hsp : s ≤ p) :
    ((text.drop s).take (e - s)).drop (p - s) = (text.drop p).take (e - p) := by
  rw [List.drop_take, List.drop_drop]
  have h1 : e - s - (p - s) = e - p := by omega
  have h2 : s + (p - s) = p := by omega
  rw [h1, h2]

theorem span_append (text : List Char) {p e : Nat} (hpe : p ≤ e) :
    (text.drop p).take (e - p) ++ text.drop e = text.drop p := by
  have h : text.drop e = (text.drop p).drop (e - p) := by
    rw [List.drop_drop]
    have : p + (e - p) = e := by omega
    rw [this]
  rw [h, List.take_append_drop]

/-- Invariant of the scan: once everything before offset `p` is already
covered, the remaining chunks contribute exactly the rest of the text. -/
theorem reconFrom_chunkLoop {text : List Char} {cs co : Nat} (hcs : 1 ≤ cs) :
    ∀ {s idx p : Nat}, s ≤ p → p ≤ text.length →
      (¬ text.length ≤ s →
        p ≤ (if text.length ≤ s + cs then text.length else cutEnd text cs s)) →
      reconFrom p (chunkLoop text cs co s idx) = text.drop p := by
  intro s idx
  induction s, idx using chunkLoop.induct text cs co with
  | case1 s idx h =>
    intro p hsp hpl _
    rw [chunkLoop_nil h]
    have hp : p = text.length := by omega
    rw [hp, List.drop_length]
    rfl
  | case2 s idx h h2 =>
    intro p hsp hpl hpe
    rw [chunkLoop_final h h2]
    show (mkChunk text s text.length idx).text.drop
        (p - (mkChunk text s text.length idx).start_offset) ++
      reconFrom (mkChunk text s text.length idx).end_offset [] = text.drop p
    simp only [mkChunk]
    rw [span_drop text text.length hsp]
    show (text.drop p).take (text.length - p) ++ [] = text.drop p
    rw [List.append_nil, List.take_of_length_le]
    rw [List.length_drop]
  | case3 s idx h h2 ih =>
    intro p hsp hpl hpe
    have hpe' : p ≤ cutEnd text cs s := by
      have := hpe h
      rw [if_neg h2] at this
      exact this
    obtain ⟨hlo, hhi⟩ := cutEnd_bounds text s hcs
    rw [chunkLoop_step h h2]
    show (mkChunk text s (cutEnd text cs s) idx).text.drop
        (p - (mkChunk text s (cutEnd text cs s) idx).start_offset) ++
      reconFrom (mkChunk text s (cutEnd text cs s) idx).end_offset
        (chunkLoop text cs co (nextStart (cutEnd text cs s) s co) (idx + 1)) =
      text.drop p
    simp only [mkChunk]
    rw [span_drop text (cutEnd text cs s) hsp]
    rw [ih ?_ ?_ ?_]
    · exact span_append text hpe'
    · show nextStart (cutEnd text cs s) s co ≤ cutEnd text cs s
      simp only [nextStart]
      omega
    · omega
    · intro h'
      by_cases h2' : text.length ≤ nextStart (cutEnd text cs s) s co + cs
      · rw [if_pos h2']
        omega
      · rw [if_neg h2']
        exact cutEnd_mono text (by simp only [nextStart]; omega)

theorem chunkLoop_chain_le {text : List Char} {cs co : Nat} (hcs : 1 ≤ cs) :
    ∀ {s idx : Nat}, List.Chain' (fun a b => b.start_offset ≤ a.end_offset)
      (chunkLoop text cs co s idx) := by
  intro s idx
  induction s, idx using chunkLoop.induct text cs co with
  | case1 s idx h => rw [chunkLoop_nil h]; simp
  | case2 s idx h h2 => rw [chunkLoop_final h h2]; exact List.chain'_singleton _
  | case3 s idx h h2 ih =>
    rw [chunkLoop_step h h2]
    rw [List.chain'_cons']
    refine ⟨?_, ih⟩
    intro y hy
    rw [chunkLoop_head?_start y hy]
    obtain ⟨hlo, hhi⟩ := cutEnd_bounds text s hcs
    show nextStart (cutEnd text cs s) s co ≤ cutEnd text cs s
    simp only [nextStart]
    omega

theorem chunkLoop_chain_lt {text : List Char} {cs co : Nat} :
    ∀ {s idx : Nat}, List.Chain' (fun a b => a.start_offset < b.start_offset)
      (chunkLoop text cs co s idx) := by
  intro s idx
  induction s, idx using chunkLoop.induct text cs co with
  | case1 s idx h => rw [chunkLoop_nil h]; simp
  | case2 s idx h h2 => rw [chunkLoop_final h h2]; exact List.chain'_singleton _
  | case3 s idx h h2 ih =>
    rw [chunkLoop_step h h2]
    rw [List.chain'_cons']
    refine ⟨?_, ih⟩
    intro y hy
    rw [chunkLoop_head?_start y hy]
    show (mkChunk text s (cutEnd text cs s) idx).start_offset <
      nextStart (cutEnd text cs s) s co
    simp only [mkChunk, nextStart]
    omega

theorem chunk_ok_elim {text : List Char} {cs co : Int} {l : List ChunkRecord}
    (hcs : 0 < cs) (hco : 0 ≤ co) (hlt : co < cs)
    (hok : chunk text cs co = Except.ok l) :
    l = chunkCore text cs.toNat co.toNat ∧ 1 ≤ cs.toNat ∧ co.toNat < cs.toNat := by
  rw [chunk, if_neg (by omega)] at hok
  cases hok
  exact ⟨rfl, by omega, by omega⟩

/-! ## Claim theorems about the chunker -/

/-- C1.  Coverage: for every text and every valid configuration, the chunks
returned by `chunk` cover the whole input with no gaps: the first chunk
starts at offset 0, the last chunk ends at `len(text)`, each chunk starts no
later than its predecessor ends, and concatenating the spans — dropping each
chunk's declared overlap with its predecessor — reconstructs the input text
exactly. -/
theorem chunk_coverage (text : List Char) (cs co : Int) (l : List ChunkRecord)
    (hcs : 0 < cs) (hco : 0 ≤ co) (hlt : co < cs)
    (hok : chunk text cs co = Except.ok l) :
    (l.map ChunkRecord.start_offset).head? = (if text = [] then none else some 0) ∧
    (l.map ChunkRecord.end_offset).getLast? =
      (if text = [] then none else some text.length) ∧
    List.Chain' (fun a b => b.start_offset ≤ a.end_offset) l ∧
    reconstruct l = text := by
  obtain ⟨hl, hcsn, hcon⟩ := chunk_ok_elim hcs hco hlt hok
  subst hl
  refine ⟨?_, ?_, chunkLoop_chain_le hcsn, ?_⟩
  · rw [List.head?_map]
    by_cases ht : text = []
    · rw [if_pos ht]
      rw [chunkCore, chunkLoop_nil (by simp [ht])]
      rfl
    · rw [if_neg ht]
      have hlen : 0 < text.length := List.length_pos.2 ht
      rcases hne : chunkCore text cs.toNat co.toNat with _ | ⟨c, rest⟩
      · exact absurd hne (chunkLoop_ne_nil hlen)
      · have hst := @chunkLoop_head?_start text cs.toNat co.toNat 0 0 c
          (by rw [← chunkCore, hne]; rfl)
        simp [hst]
  · rw [List.getLast?_map]
    by_cases ht : text = []
    · rw [if_pos ht]
      rw [chunkCore, chunkLoop_nil (by simp [ht])]
      rfl
    · rw [if_neg ht]
      have hlen : 0 < text.length := List.length_pos.2 ht
      rcases hne : (chunkCore text cs.toNat co.toNat).getLast? with _ | c
      · rw [List.getLast?_eq_none_iff] at hne
        exact absurd hne (chunkLoop_ne_nil hlen)
      · have hend := chunkLoop_getLast_end hcsn hlen c (by rw [← chunkCore, hne]; rfl)
        simp [hend]
  · by_cases ht : text = []
    · subst ht
      rw [chunkCore, chunkLoop_nil (by simp)]
      rfl
    · have hlen : 0 < text.length := List.length_pos.2 ht
      rcases hne : chunkCore text cs.toNat co.toNat with _ | ⟨c, rest⟩
      · exact absurd hne (chunkLoop_ne_nil hlen)
      · have hst := @chunkLoop_head?_start text cs.toNat co.toNat 0 0 c
          (by rw [← chunkCore, hne]; rfl)
        show reconFrom c.start_offset (c :: rest) = text
        rw [hst, ← hne]
        have := @reconFrom_chunkLoop text cs.toNat co.toNat
          hcsn 0 0 0 (Nat.le_refl 0) (Nat.zero_le _)
          (fun _ => Nat.zero_le _)
        rw [chunkCore, this]
        rfl

/-- C2.  Exact overlap: whenever a non-final chunk's cut was not shifted by
boundary adjustment (its end offset sits exactly `chunk_size` past its
start), the next chunk's start offset equals that end offset minus
`chunk_overlap`; the last chunk has no trailing-overlap obligation (there is
no next chunk). -/
theorem chunk_exact_overlap (text : List Char) (cs co : Int) (l : List ChunkRecord)
    (hcs : 0 < cs) (hco : 0 ≤ co) (hlt : co < cs)
    (hok : chunk text cs co = Except.ok l) (i : Nat)
    (hi : i < l.length) (hi1 : i + 1 < l.length)
    (hcut : (l.get ⟨i, hi⟩).end_offset = (l.get ⟨i, hi⟩).start_offset + cs.toNat) :
    ((l.get ⟨i + 1, hi1⟩).start_offset : Int) = ((l.get ⟨i, hi⟩).end_offset : Int) - co := by
  obtain ⟨hl, hcsn, hcon⟩ := chunk_ok_elim hcs hco hlt hok
  have hchain : List.Chain'
      (fun a b => b.start_offset = nextStart a.end_offset a.start_offset co.toNat) l := by
    rw [hl]
    exact chunkLoop_chain
  have hadj := List.chain'_iff_get.1 hchain i (by omega)
  simp only [nextStart] at hadj
  omega

/-- C3.  Configuration errors fail fast: `chunk` returns the configuration
error exactly when `chunk_size <= 0`, `chunk_overlap < 0` or
`chunk_overlap >= chunk_size`; the rejection happens before any chunking
begins (the error carries no chunks), and on valid parameters `chunk` always
returns a result — there is no other failure mode for any string input. -/
theorem chunk_config_error_iff (text : List Char) (cs co : Int) :
    ((∃ e, chunk text cs co = Except.error e) ↔ (cs ≤ 0 ∨ co < 0 ∨ cs ≤ co)) ∧
    (¬(cs ≤ 0 ∨ co < 0 ∨ cs ≤ co) →
      chunk text cs co = Except.ok (chunkCore text cs.toNat co.toNat)) := by
  constructor
  · constructor
    · intro ⟨e, he⟩
      by_contra hv
      rw [chunk, if_neg hv] at he
      cases he
    · intro hv
      refine ⟨ConfigurationError.invalidParams, ?_⟩
      rw [chunk, if_pos hv]
  · intro hv
    rw [chunk, if_neg hv]

/-- C4.  Bounded size: every chunk record satisfies
`char_count <= chunk_size`, and `char_count` equals
`end_offset - start_offset`, measured in characters. -/
theorem chunk_bounded_size (text : List Char) (cs co : Int) (l : List ChunkRecord)
    (hcs : 0 < cs) (hco : 0 ≤ co) (hlt : co < cs)
    (hok : chunk text cs co = Except.ok l) (c : ChunkRecord) (hc : c ∈ l) :
    (c.char_count : Int) ≤ cs ∧ c.char_count = c.end_offset - c.start_offset := by
  obtain ⟨hl, hcsn, hcon⟩ := chunk_ok_elim hcs hco hlt hok
  subst hl
  obtain ⟨-, h2, -, h4, -, h6⟩ := chunkLoop_mem hcsn hc
  exact ⟨by omega, h6⟩

/-- C5.  Contiguous indexing: the `chunk_index` fields of the returned
records are exactly `0, 1, ..., N-1` in output order. -/
theorem chunk_contiguous_index (text : List Char) (cs co : Int) (l : List ChunkRecord)
    (hcs : 0 < cs) (hco : 0 ≤ co) (hlt : co < cs)
    (hok : chunk text cs co = Except.ok l) :
    l.map ChunkRecord.chunk_index = List.range l.length := by
  obtain ⟨hl, hcsn, hcon⟩ := chunk_ok_elim hcs hco hlt hok
  subst hl
  rw [List.range_eq_range']
  exact chunkLoop_map_index

/-- C6.  No empty chunks: on the empty input the core emits zero chunks (not
one empty chunk), and every chunk produced from any text has a strictly
positive `char_count`. -/
theorem chunk_no_empty (cs co : Int)
    (hcs : 0 < cs) (hco : 0 ≤ co) (hlt : co < cs) :
    chunk [] cs co = Except.ok [] ∧
    ∀ (text : List Char) (l : List ChunkRecord) (c : ChunkRecord),
      chunk text cs co = Except.ok l → c ∈ l → 0 < c.char_count := by
  constructor
  · rw [chunk, if_neg (by omega)]
    rw [chunkCore, chunkLoop_nil (by simp)]
  · intro text l c hok hc
    obtain ⟨hl, hcsn, hcon⟩ := chunk_ok_elim hcs hco hlt hok
    subst hl
    obtain ⟨-, h2, -, -, -, h6⟩ := chunkLoop_mem hcsn hc
    omega

/-- C8.  Termination by strict forward progress: the start offsets of the
emitted chunks are strictly increasing.  In this embedding `chunk` is a total
function: `chunkLoop` is defined by well-founded recursion on
`text.length - start_offset`, which decreases precisely because the next
start offset is clamped strictly above the previous one — the Lean
termination proof is the formal counterpart of the spec's
no-infinite-loop argument. -/
theorem chunk_forward_progress (text : List Char) (cs co : Int) (l : List ChunkRecord)
    (hcs : 0 < cs) (hco : 0 ≤ co) (hlt : co < cs)
    (hok : chunk text cs co = Except.ok l) :
    List.Chain' (fun a b => a.start_offset < b.start_offset) l := by
  obtain ⟨hl, hcsn, hcon⟩ := chunk_ok_elim hcs hco hlt hok
  subst hl
  exact chunkLoop_chain_lt

/-! ### Caller-layer lemmas -/

theorem process_document_ok {content : List Char} {cs co : Int}
    (hcs : 0 < cs) (hco : 0 ≤ co) (hlt : co < cs) :
    process_document content cs co = Except.ok
      ((chunkCore (normalize content) cs.toNat co.toNat).map chunkToDict) := by
  rw [process_document, chunk, if_neg (by omega)]
  rfl

theorem processDocsLoop_ok {cs co : Int}
    (hcs : 0 < cs) (hco : 0 ≤ co) (hlt : co < cs) :
    ∀ (documents : List Document) (acc : List (List (String × Val))),
      processDocsLoop documents cs co acc = Except.ok
        (acc ++ (documents.map (fun doc => stampChunks doc.filename
          ((chunkCore (normalize doc.content) cs.toNat co.toNat).map
            chunkToDict))).flatten) := by
  intro documents
  induction documents with
  | nil => intro acc; simp [processDocsLoop]
  | cons doc rest ih =>
    intro acc
    rw [processDocsLoop, process_document_ok hcs hco hlt]
    show processDocsLoop rest cs co
        (acc ++ stampChunks doc.filename
          ((chunkCore (normalize doc.content) cs.toNat co.toNat).map chunkToDict)) = _
    rw [ih]
    simp [List.append_assoc]

theorem chunkToDict_keys (c : ChunkRecord) :
    (chunkToDict c).all (fun p => ¬ p.1 = "source_file") = true := by
  simp [chunkToDict]

theorem setKey_append_of_all_ne {d : List (String × Val)} {k : String} (v : Val)
    (h : d.all (fun p => ¬ p.1 = k) = true) :
    setKey d k v = d ++ [(k, v)] := by
  have hnot : ¬ (d.any (fun p => p.1 = k) = true) := by
    rw [List.any_eq_true]
    rintro ⟨p, hp, hpk⟩
    rw [List.all_eq_true] at h
    have hne := h p hp
    simp only [decide_eq_true_eq] at hne hpk
    exact hne hpk
  rw [setKey, if_neg hnot]

theorem lookupKey_append_of_all_ne {d : List (String × Val)} {k : String} (v : Val)
    (h : d.all (fun p => ¬ p.1 = k) = true) :
    lookupKey (d ++ [(k, v)]) k = some v := by
  induction d with
  | nil => simp [lookupKey, List.find?]
  | cons p d' ih =>
    rw [List.all_cons, Bool.and_eq_true] at h
    rw [List.cons_append, lookupKey, List.find?_cons_of_neg _ (by simpa using h.1)]
    exact ih h.2

theorem lookupKey_stamped (c : ChunkRecord) (filename : String) :
    lookupKey (setKey (chunkToDict c) "source_file" (Val.str filename))
      "source_file" = some (Val.str filename) := by
  rw [setKey_append_of_all_ne _ (chunkToDict_keys c)]
  exact lookupKey_append_of_all_ne _ (chunkToDict_keys c)

/-! ## Claim theorems about the caller layer -/

/-- C10.  Aggregation preserves order and chunk contents: `process_documents`
returns exactly the concatenation, in input-document order, of the per-chunk
dicts the core produces for each document (in per-document order), each dict
unchanged except for the stamped `source_file` key; the empty document list
yields the empty chunk list. -/
theorem process_documents_concat (documents : List Document) (cs co : Int)
    (hcs : 0 < cs) (hco : 0 ≤ co) (hlt : co < cs) :
    process_documents documents cs co = Except.ok
      ((documents.map (fun doc => stampChunks doc.filename
        ((chunkCore (normalize doc.content) cs.toNat co.toNat).map
          chunkToDict))).flatten) ∧
    process_documents [] cs co = Except.ok [] := by
  constructor
  · rw [process_documents, processDocsLoop_ok hcs hco hlt]
    rfl
  · rfl

/-- C9 (amended).  Provenance stamping: every chunk dict returned by
`process_documents` is one of the dicts produced by
`rag_rust_core.process_document` for some input document, stamped by the
caller with a `source_file` key holding that document's filename.  (The spec
calls this field `source_id`; the code stamps it as `source_file`.) -/
theorem process_documents_source_file (documents : List Document) (cs co : Int)
    (out : List (List (String × Val)))
    (hcs : 0 < cs) (hco : 0 ≤ co) (hlt : co < cs)
    (hok : process_documents documents cs co = Except.ok out) :
    ∀ d ∈ out, ∃ doc ∈ documents, ∃ chunks,
      process_document doc.content cs co = Except.ok chunks ∧
      ∃ c ∈ chunks, d = setKey c "source_file" (Val.str doc.filename) ∧
        lookupKey d "source_file" = some (Val.str doc.filename) := by
  intro d hd
  rw [process_documents, processDocsLoop_ok hcs hco hlt, List.nil_append] at hok
  cases hok
  rw [List.mem_flatten] at hd
  obtain ⟨li, hli, hdli⟩ := hd
  rw [List.mem_map] at hli
  obtain ⟨doc, hdoc, hstamp⟩ := hli
  refine ⟨doc, hdoc,
    (chunkCore (normalize doc.content) cs.toNat co.toNat).map chunkToDict,
    process_document_ok hcs hco hlt, ?_⟩
  rw [← hstamp] at hdli
  rw [stampChunks, List.mem_map] at hdli
  obtain ⟨c, hc, hcd⟩ := hdli
  refine ⟨c, hc, hcd.symm, ?_⟩
  rw [List.mem_map] at hc
  obtain ⟨c0, -, hc0⟩ := hc
  rw [← hcd, ← hc0]
  exact lookupKey_stamped c0 doc.filename


/-! ## Concrete evaluations (shared by the witnesses below) -/

theorem chunk_ab_eval : chunk "ab".data 1 0 =
    Except.ok [⟨['a'], 1, 0, 0, 1⟩, ⟨['b'], 1, 1, 1, 2⟩] := by
  rw [chunk, if_neg (by decide)]
  simp [chunkCore, chunkLoop, cutEnd, findBoundary, boundaryPreds, scanBack,
    lookback, nextStart, mkChunk, isParaChar, isSentChar, isSpaceChar]

theorem process_documents_hi_eval :
    process_documents [⟨"a.txt", "hi".data⟩] 1500 200 = Except.ok
      [[("text", Val.str "hi"), ("char_count", Val.int 2),
        ("chunk_index", Val.int 0), ("start_offset", Val.int 0),
        ("end_offset", Val.int 2), ("source_file", Val.str "a.txt")]] := by
  have hn : normalize "hi".data = "hi".data := by
    simp [normalize, normEol, collapseHWs, trim, isHWs, isWs]
  rw [process_documents, processDocsLoop, process_document, hn,
    chunk, if_neg (by decide)]
  simp [chunkCore, chunkLoop, mkChunk, chunkToDict, stampChunks, setKey,
    processDocsLoop, Except.map]
  rfl

/-! ## Remaining claim theorems, witnesses and counterexamples -/

/-- C7.  Normalization is total and idempotent: `normalize` is defined for
every string (it is a total Lean function), maps the empty string to the
empty string, and is idempotent — in particular, already-clean input (a
fixed point of `normalize`, which is how the spec characterizes clean text)
is returned unchanged. -/
theorem normalize_total_idem :
    normalize [] = [] ∧ ∀ s : List Char, normalize (normalize s) = normalize s :=
  ⟨by simp [normalize, normEol, collapseHWs, trim], normalize_idem⟩

/-- Witness for C1 at `text = "ab"`, `chunk_size = 1`, `chunk_overlap = 0`. -/
theorem chunk_coverage_witness :
    (0 : Int) < 1 ∧ (0 : Int) ≤ 0 ∧ (0 : Int) < 1 ∧
    chunk "ab".data 1 0 =
      Except.ok [⟨['a'], 1, 0, 0, 1⟩, ⟨['b'], 1, 1, 1, 2⟩] ∧
    ((([⟨['a'], 1, 0, 0, 1⟩, ⟨['b'], 1, 1, 1, 2⟩] : List ChunkRecord).map
        ChunkRecord.start_offset).head? = (if "ab".data = [] then none else some 0) ∧
      (([⟨['a'], 1, 0, 0, 1⟩, ⟨['b'], 1, 1, 1, 2⟩] : List ChunkRecord).map
        ChunkRecord.end_offset).getLast? =
          (if "ab".data = [] then none else some "ab".data.length) ∧
      List.Chain' (fun a b => b.start_offset ≤ a.end_offset)
        ([⟨['a'], 1, 0, 0, 1⟩, ⟨['b'], 1, 1, 1, 2⟩] : List ChunkRecord) ∧
      reconstruct [⟨['a'], 1, 0, 0, 1⟩, ⟨['b'], 1, 1, 1, 2⟩] = "ab".data) :=
  ⟨by decide, by decide, by decide, chunk_ab_eval,
    chunk_coverage "ab".data 1 0 [⟨['a'], 1, 0, 0, 1⟩, ⟨['b'], 1, 1, 1, 2⟩]
      (by decide) (by decide) (by decide) chunk_ab_eval⟩

/-- Witness for C2: the first chunk of the same run is an unshifted cut, and
the second chunk starts exactly `chunk_overlap` before its end. -/
theorem chunk_exact_overlap_witness :
    (0 : Int) < 1 ∧ (0 : Int) ≤ 0 ∧ (0 : Int) < 1 ∧
    chunk "ab".data 1 0 =
      Except.ok [⟨['a'], 1, 0, 0, 1⟩, ⟨['b'], 1, 1, 1, 2⟩] ∧
    (([⟨['a'], 1, 0, 0, 1⟩, ⟨['b'], 1, 1, 1, 2⟩] : List ChunkRecord).get
        ⟨0, by decide⟩).end_offset =
      (([⟨['a'], 1, 0, 0, 1⟩, ⟨['b'], 1, 1, 1, 2⟩] : List ChunkRecord).get
        ⟨0, by decide⟩).start_offset + (1 : Int).toNat ∧
    ((([⟨['a'], 1, 0, 0, 1⟩, ⟨['b'], 1, 1, 1, 2⟩] : List ChunkRecord).get
        ⟨1, by decide⟩).start_offset : Int) =
      ((([⟨['a'], 1, 0, 0, 1⟩, ⟨['b'], 1, 1, 1, 2⟩] : List ChunkRecord).get
        ⟨0, by decide⟩).end_offset : Int) - 0 :=
  ⟨by decide, by decide, by decide, chunk_ab_eval, by decide,
    chunk_exact_overlap "ab".data 1 0 [⟨['a'], 1, 0, 0, 1⟩, ⟨['b'], 1, 1, 1, 2⟩]
      (by decide) (by decide) (by decide) chunk_ab_eval 0
      (by decide) (by decide) (by decide)⟩

/-- Witness for C3 at the spec's own invalid example `chunk("abc", 10, 10)`. -/
theorem chunk_config_error_iff_witness :
    ((∃ e, chunk "abc".data 10 10 = Except.error e) ↔
      ((10 : Int) ≤ 0 ∨ (10 : Int) < 0 ∨ (10 : Int) ≤ 10)) ∧
    (¬((10 : Int) ≤ 0 ∨ (10 : Int) < 0 ∨ (10 : Int) ≤ 10) →
      chunk "abc".data 10 10 =
        Except.ok (chunkCore "abc".data (10 : Int).toNat (10 : Int).toNat)) :=
  chunk_config_error_iff "abc".data 10 10

/-- Witness for C4 at the first chunk of `chunk("ab", 1, 0)`. -/
theorem chunk_bounded_size_witness :
    (0 : Int) < 1 ∧ (0 : Int) ≤ 0 ∧ (0 : Int) < 1 ∧
    chunk "ab".data 1 0 =
      Except.ok [⟨['a'], 1, 0, 0, 1⟩, ⟨['b'], 1, 1, 1, 2⟩] ∧
    (⟨['a'], 1, 0, 0, 1⟩ : ChunkRecord) ∈
      ([⟨['a'], 1, 0, 0, 1⟩, ⟨['b'], 1, 1, 1, 2⟩] : List ChunkRecord) ∧
    (((⟨['a'], 1, 0, 0, 1⟩ : ChunkRecord).char_count : Int) ≤ 1 ∧
      (⟨['a'], 1, 0, 0, 1⟩ : ChunkRecord).char_count =
        (⟨['a'], 1, 0, 0, 1⟩ : ChunkRecord).end_offset -
          (⟨['a'], 1, 0, 0, 1⟩ : ChunkRecord).start_offset) :=
  ⟨by decide, by decide, by decide, chunk_ab_eval, by decide,
    chunk_bounded_size "ab".data 1 0 [⟨['a'], 1, 0, 0, 1⟩, ⟨['b'], 1, 1, 1, 2⟩]
      (by decide) (by decide) (by decide) chunk_ab_eval
      ⟨['a'], 1, 0, 0, 1⟩ (by decide)⟩

/-- Witness for C5 on `chunk("ab", 1, 0)`. -/
theorem chunk_contiguous_index_witness :
    (0 : Int) < 1 ∧ (0 : Int) ≤ 0 ∧ (0 : Int) < 1 ∧
    chunk "ab".data 1 0 =
      Except.ok [⟨['a'], 1, 0, 0, 1⟩, ⟨['b'], 1, 1, 1, 2⟩] ∧
    ([⟨['a'], 1, 0, 0, 1⟩, ⟨['b'], 1, 1, 1, 2⟩] : List ChunkRecord).map
        ChunkRecord.chunk_index =
      List.range ([⟨['a'], 1, 0, 0, 1⟩, ⟨['b'], 1, 1, 1, 2⟩] : List ChunkRecord).length :=
  ⟨by decide, by decide, by decide, chunk_ab_eval,
    chunk_contiguous_index "ab".data 1 0 [⟨['a'], 1, 0, 0, 1⟩, ⟨['b'], 1, 1, 1, 2⟩]
      (by decide) (by decide) (by decide) chunk_ab_eval⟩

/-- Witness for C6: empty input gives zero chunks, and a chunk of
`chunk("ab", 1, 0)` is non-empty. -/
theorem chunk_no_empty_witness :
    (0 : Int) < 1 ∧ (0 : Int) ≤ 0 ∧ (0 : Int) < 1 ∧
    chunk ([] : List Char) 1 0 = Except.ok [] ∧
    0 < (⟨['a'], 1, 0, 0, 1⟩ : ChunkRecord).char_count :=
  ⟨by decide, by decide, by decide,
    (chunk_no_empty 1 0 (by decide) (by decide) (by decide)).1,
    (chunk_no_empty 1 0 (by decide) (by decide) (by decide)).2 "ab".data
      [⟨['a'], 1, 0, 0, 1⟩, ⟨['b'], 1, 1, 1, 2⟩] ⟨['a'], 1, 0, 0, 1⟩
      chunk_ab_eval (by decide)⟩

/-- Witness for C8 on `chunk("ab", 1, 0)`. -/
theorem chunk_forward_progress_witness :
    (0 : Int) < 1 ∧ (0 : Int) ≤ 0 ∧ (0 : Int) < 1 ∧
    chunk "ab".data 1 0 =
      Except.ok [⟨['a'], 1, 0, 0, 1⟩, ⟨['b'], 1, 1, 1, 2⟩] ∧
    List.Chain' (fun a b => a.start_offset < b.start_offset)
      ([⟨['a'], 1, 0, 0, 1⟩, ⟨['b'], 1, 1, 1, 2⟩] : List ChunkRecord) :=
  ⟨by decide, by decide, by decide, chunk_ab_eval,
    chunk_forward_progress "ab".data 1 0 [⟨['a'], 1, 0, 0, 1⟩, ⟨['b'], 1, 1, 1, 2⟩]
      (by decide) (by decide) (by decide) chunk_ab_eval⟩

/-- C9, counterexample to the claim as stated: the single chunk dict
returned by `process_documents` for a one-document corpus has no
`source_id` key at all — the caller stamps the filename under `source_file`
(steps.py:76), not `source_id`. -/
theorem process_documents_source_id_cex :
    process_documents [⟨"a.txt", "hi".data⟩] 1500 200 = Except.ok
      [[("text", Val.str "hi"), ("char_count", Val.int 2),
        ("chunk_index", Val.int 0), ("start_offset", Val.int 0),
        ("end_offset", Val.int 2), ("source_file", Val.str "a.txt")]] ∧
    lookupKey [("text", Val.str "hi"), ("char_count", Val.int 2),
      ("chunk_index", Val.int 0), ("start_offset", Val.int 0),
      ("end_offset", Val.int 2), ("source_file", Val.str "a.txt")]
      "source_id" = none :=
  ⟨process_documents_hi_eval, by decide⟩

/-- Witness for C9 (amended) on a one-document corpus. -/
theorem process_documents_source_file_witness :
    (0 : Int) < 1500 ∧ (0 : Int) ≤ 200 ∧ (200 : Int) < 1500 ∧
    process_documents [⟨"a.txt", "hi".data⟩] 1500 200 = Except.ok
      [[("text", Val.str "hi"), ("char_count", Val.int 2),
        ("chunk_index", Val.int 0), ("start_offset", Val.int 0),
        ("end_offset", Val.int 2), ("source_file", Val.str "a.txt")]] ∧
    ([("text", Val.str "hi"), ("char_count", Val.int 2),
        ("chunk_index", Val.int 0), ("start_offset", Val.int 0),
        ("end_offset", Val.int 2), ("source_file", Val.str "a.txt")] : List (String × Val)) ∈
      [[("text", Val.str "hi"), ("char_count", Val.int 2),
        ("chunk_index", Val.int 0), ("start_offset", Val.int 0),
        ("end_offset", Val.int 2), ("source_file", Val.str "a.txt")]] ∧
    (∃ doc ∈ ([⟨"a.txt", "hi".data⟩] : List Document), ∃ chunks,
      process_document doc.content 1500 200 = Except.ok chunks ∧
      ∃ c ∈ chunks,
        ([("text", Val.str "hi"), ("char_count", Val.int 2),
          ("chunk_index", Val.int 0), ("start_offset", Val.int 0),
          ("end_offset", Val.int 2), ("source_file", Val.str "a.txt")] :
            List (String × Val)) =
          setKey c "source_file" (Val.str doc.filename) ∧
        lookupKey [("text", Val.str "hi"), ("char_count", Val.int 2),
          ("chunk_index", Val.int 0), ("start_offset", Val.int 0),
          ("end_offset", Val.int 2), ("source_file", Val.str "a.txt")]
          "source_file" = some (Val.str doc.filename)) :=
  ⟨by decide, by decide, by decide, process_documents_hi_eval, by decide,
    process_documents_source_file [⟨"a.txt", "hi".data⟩] 1500 200
      [[("text", Val.str "hi"), ("char_count", Val.int 2),
        ("chunk_index", Val.int 0), ("start_offset", Val.int 0),
        ("end_offset", Val.int 2), ("source_file", Val.str "a.txt")]]
      (by decide) (by decide) (by decide) process_documents_hi_eval
      [("text", Val.str "hi"), ("char_count", Val.int 2),
        ("chunk_index", Val.int 0), ("start_offset", Val.int 0),
        ("end_offset", Val.int 2), ("source_file", Val.str "a.txt")]
      (by decide)⟩

/-- Witness for C10 on a one-document corpus. -/
theorem process_documents_concat_witness :
    (0 : Int) < 1500 ∧ (0 : Int) ≤ 200 ∧ (200 : Int) < 1500 ∧
    (process_documents [⟨"a.txt", "hi".data⟩] 1500 200 = Except.ok
      ((([⟨"a.txt", "hi".data⟩] : List Document).map (fun doc =>
        stampChunks doc.filename
          ((chunkCore (normalize doc.content) (1500 : Int).toNat
            (200 : Int).toNat).map chunkToDict))).flatten) ∧
     process_documents [] 1500 200 = Except.ok []) :=
  ⟨by decide, by decide, by decide,
    process_documents_concat [⟨"a.txt", "hi".data⟩] 1500 200
      (by decide) (by decide) (by decide)⟩
